import Mathlib

/-!
Verification of the text-normalization and vocabulary-construction pipeline
of the wav2vec2 fine-tuning notebook
(`sagemaker-fine-tune-wav2vec2-presentation.ipynb`).

Embedding conventions:
* Python strings are embedded as `List Char` (a list of Unicode code points).
* `remove_special_characters` (`re.sub('[\,\?\.\!\-\;\:\"]', '', text).lower()`)
  is embedded as literal character removal followed by ASCII case folding.
  Python `str.lower` is modelled on the ASCII range (the only range the
  LibriSpeech transcripts of the notebook use); characters outside `A`..`Z`
  are left unchanged.
* The Python dict `vocab_dict` is embedded as an association list
  `List (List Char × Nat)` with Python dict semantics: assignment updates an
  existing key in place and otherwise appends at the end; `del` removes the
  key; iteration/insertion order is preserved.
* `vocab_list = list(set(texts))` enumerates a CPython set whose iteration
  order is implementation defined but is a function of the element set (not
  of insertion order).  We model that enumeration canonically as the
  code-point-sorted listing of the distinct characters, per the
  specification (§4.2 step 3, §9), which fixes a reproducible order while
  preserving the essential property that the enumeration depends only on
  the set of distinct characters.
-/

namespace Wav2Vec2Prep

/-- Python regex character class `'[\,\?\.\!\-\;\:\"]'` from
`remove_special_characters`: the eight punctuation characters removed by the
normalizer. -/
def charsToIgnore : List Char := [',', '?', '.', '!', '-', ';', ':', '"']

/-- Python `re.sub(chars_to_ignore_regex, '', text)`: delete every occurrence
of the eight ignorable punctuation characters. -/
def subIgnored : List Char → List Char
  | [] => []
  | c :: s => if c ∈ charsToIgnore then subIgnored s else c :: subIgnored s

/-- Python `str.lower` on a single character, modelled on the ASCII range:
`A`..`Z` (code points 65..90) map to `a`..`z` (code points 97..122), every
other character is unchanged. -/
def toLowerCh (c : Char) : Char :=
  if 65 ≤ c.toNat ∧ c.toNat ≤ 90 then Char.ofNat (c.toNat + 32) else c

/-- Python `remove_special_characters` applied to one transcript string:
`re.sub(chars_to_ignore_regex, '', batch["text"]).lower()`. -/
def remove_special_characters (s : List Char) : List Char :=
  (subIgnored s).map toLowerCh

/-- The specification's name (`normalize`, §4.1) for
`remove_special_characters`. -/
def normalize : List Char → List Char := remove_special_characters

/-!
Vocabulary construction.

Source (notebook cell "Build vocabulary file"):
```
def extract_characters(batch):
    texts = " ".join(batch["text"])
    vocab = list(set(texts))
    return {"vocab": [vocab], "texts": [texts]}

vocab_list = list(set(vocabs["train"]["vocab"][0]) | set(vocabs["test"]["vocab"][0]))
vocab_dict = {v: k for k, v in enumerate(vocab_list)}
vocab_dict["|"] = vocab_dict[" "]
del vocab_dict[" "]
vocab_dict["[UNK]"] = len(vocab_dict)
vocab_dict["[PAD]"] = len(vocab_dict)
```
The specification (§4.2) abstracts this as `buildVocabulary` over one corpus
of normalized transcripts: join all transcripts with a single space, take the
set of distinct characters, enumerate them, substitute the word delimiter for
the space character, then append the two reserved tokens.  The notebook runs
`extract_characters` over the train and the test split and unions the two
character sets; joining the combined corpus once yields the same characters.
-/

/-- Python `" ".join(texts)`: concatenate the transcripts with a single space
character between consecutive transcripts. -/
def joinWithSpace : List (List Char) → List Char
  | [] => []
  | [t] => t
  | t :: t2 :: ts => t ++ ' ' :: joinWithSpace (t2 :: ts)

/-- Python `vocab_list = list(set(texts))`: the distinct characters of the
joined corpus.  CPython enumerates a set in an implementation-defined order
that is a function of the element set; following the specification (§4.2
step 3, §9) we fix the canonical code-point-sorted enumeration. -/
def vocabList (corpus : List (List Char)) : List Char :=
  List.insertionSort (fun a b => a ≤ b) (joinWithSpace corpus).dedup

/-- A key of the Python dict `vocab_dict`: a one-character string for an
ordinary symbol, or one of the reserved token strings. -/
abbrev Key := List Char

/-- The Python dict `vocab_dict`, embedded as an association list in
insertion order (Python dicts preserve insertion order). -/
abbrev Vocab := List (Key × Nat)

/-- The reserved word-delimiter token string `"|"`. -/
def wordDelimiterToken : Key := ['|']

/-- The dict key `" "` holding the space character. -/
def spaceKey : Key := [' ']

/-- The reserved unknown token string `"[UNK]"`. -/
def unkToken : Key := ['[', 'U', 'N', 'K', ']']

/-- The reserved padding/blank token string `"[PAD]"`. -/
def padToken : Key := ['[', 'P', 'A', 'D', ']']

/-- Python `d[k]` as a total lookup: the value stored at key `k`, if any. -/
def dictGet? : Vocab → Key → Option Nat
  | [], _ => none
  | p :: d, k => if p.1 = k then some p.2 else dictGet? d k

/-- Python `d[k] = v`: update the entry of an existing key in place,
otherwise append the new entry at the end (Python dict insertion order). -/
def dictSet : Vocab → Key → Nat → Vocab
  | [], k, v => [(k, v)]
  | p :: d, k, v => if p.1 = k then (k, v) :: d else p :: dictSet d k v

/-- Python `del d[k]`: remove the entry of key `k` (the first one; keys of a
Python dict are unique). -/
def dictDel : Vocab → Key → Vocab
  | [], _ => []
  | p :: d, k => if p.1 = k then d else p :: dictDel d k

/-- Errors of the vocabulary builder.  The source raises a Python `KeyError`
when `vocab_dict[" "]` is looked up and the space character is absent.
`emptyCorpusError` is modelled from the spec: `EmptyCorpusError` (§4.2, §7)
is the specification's name for the failure on a corpus with no characters;
the source never raises an error of that name. -/
inductive VocabError where
  | keyError : Key → VocabError
  | emptyCorpusError : VocabError
deriving DecidableEq

deriving instance DecidableEq for Except

/-- Python `vocab_dict = {v: k for k, v in enumerate(vocab_list)}`: each
distinct character, as a one-character key, mapped to its enumeration
index. -/
def vocabInit (corpus : List (List Char)) : Vocab :=
  (vocabList corpus).enum.map (fun p => ([p.2], p.1))

/-- The dict mutation steps of the source applied to an initial
character-to-index dict: `vocab_dict["|"] = vocab_dict[" "]`,
`del vocab_dict[" "]`, `vocab_dict["[UNK]"] = len(vocab_dict)`,
`vocab_dict["[PAD]"] = len(vocab_dict)`.  The first step raises `KeyError`
when the space key is absent. -/
def buildVocabFrom (d0 : Vocab) : Except VocabError Vocab :=
  match dictGet? d0 spaceKey with
  | none => .error (.keyError spaceKey)
  | some i =>
    let d1 := dictDel (dictSet d0 wordDelimiterToken i) spaceKey
    let d2 := dictSet d1 unkToken d1.length
    let d3 := dictSet d2 padToken d2.length
    .ok d3

/-- The specification's `buildVocabulary` (§4.2), as implemented by the
source: characters of the space-joined corpus, enumerated, with the
word-delimiter substitution and the two reserved tokens. -/
def buildVocabulary (corpus : List (List Char)) : Except VocabError Vocab :=
  buildVocabFrom (vocabInit corpus)

/-- The count of distinct non-space characters across the joined corpus —
the quantity `N - 3` of the specification's size invariant (§3). -/
def distinctNonSpaceCount (corpus : List (List Char)) : Nat :=
  ((joinWithSpace corpus).dedup.filter (fun c => c != ' ')).length

/- Basic facts about the character-level case folding. -/

theorem toNat_ofNat_valid (n : Nat) (h : n.isValidChar) :
    (Char.ofNat n).toNat = n := by
  simp [Char.ofNat, h, Char.ofNatAux, Char.toNat, UInt32.toNat]

theorem toNat_toLowerCh_of_upper {c : Char} (h : 65 ≤ c.toNat ∧ c.toNat ≤ 90) :
    (toLowerCh c).toNat = c.toNat + 32 := by
  have hv : (c.toNat + 32).isValidChar := by
    constructor
    omega
  simp [toLowerCh, h, toNat_ofNat_valid _ hv]

theorem toLowerCh_eq_self {c : Char} (h : ¬ (65 ≤ c.toNat ∧ c.toNat ≤ 90)) :
    toLowerCh c = c := by
  simp [toLowerCh, h]

theorem toLowerCh_idem (c : Char) : toLowerCh (toLowerCh c) = toLowerCh c := by
  by_cases h : 65 ≤ c.toNat ∧ c.toNat ≤ 90
  · have h1 := toNat_toLowerCh_of_upper h
    have h2 : ¬ (65 ≤ (toLowerCh c).toNat ∧ (toLowerCh c).toNat ≤ 90) := by
      omega
    exact toLowerCh_eq_self h2
  · rw [toLowerCh_eq_self h, toLowerCh_eq_self h]

theorem toNat_le_of_mem_charsToIgnore {c : Char} (h : c ∈ charsToIgnore) :
    c.toNat ≤ 63 := by
  fin_cases h <;> decide

theorem toLowerCh_not_ignored {c : Char} (h : c ∉ charsToIgnore) :
    toLowerCh c ∉ charsToIgnore := by
  by_cases hu : 65 ≤ c.toNat ∧ c.toNat ≤ 90
  · intro hmem
    have h1 := toNat_toLowerCh_of_upper hu
    have h2 := toNat_le_of_mem_charsToIgnore hmem
    omega
  · rw [toLowerCh_eq_self hu]
    exact h

/- Facts about the punctuation-removal pass. -/

theorem subIgnored_eq_filter (s : List Char) :
    subIgnored s = s.filter (fun c => decide (c ∉ charsToIgnore)) := by
  induction s with
  | nil => rfl
  | cons c s ih =>
    by_cases h : c ∈ charsToIgnore <;>
      simp [subIgnored, h, ih, List.filter_cons]

theorem mem_subIgnored {c : Char} {s : List Char} :
    c ∈ subIgnored s ↔ c ∈ s ∧ c ∉ charsToIgnore := by
  rw [subIgnored_eq_filter]
  simp

theorem subIgnored_eq_self {s : List Char}
    (h : ∀ c ∈ s, c ∉ charsToIgnore) : subIgnored s = s := by
  rw [subIgnored_eq_filter]
  exact List.filter_eq_self.mpr (fun c hc => by simpa using h c hc)

theorem mem_normalize {c : Char} {s : List Char} :
    c ∈ normalize s ↔ ∃ b ∈ s, b ∉ charsToIgnore ∧ toLowerCh b = c := by
  simp only [normalize, remove_special_characters, List.mem_map, mem_subIgnored]
  constructor
  · rintro ⟨b, ⟨hb, hbi⟩, hc⟩
    exact ⟨b, hb, hbi, hc⟩
  · rintro ⟨b, hb, hbi, hc⟩
    exact ⟨b, ⟨hb, hbi⟩, hc⟩

theorem normalize_all_not_ignored (s : List Char) :
    ∀ c ∈ normalize s, c ∉ charsToIgnore := by
  intro c hc
  rcases mem_normalize.mp hc with ⟨b, _, hbi, hbc⟩
  rw [← hbc]
  exact toLowerCh_not_ignored hbi

/-- C1: applying the normalizer (strip the eight punctuation characters, then
lowercase) twice yields the same result as applying it once — normalization
is idempotent. -/
theorem normalize_idem (s : List Char) : normalize (normalize s) = normalize s := by
  have hall := normalize_all_not_ignored s
  show remove_special_characters (normalize s) = normalize s
  rw [remove_special_characters, subIgnored_eq_self hall]
  have : ∀ c ∈ normalize s, toLowerCh c = c := by
    intro c hc
    rcases mem_normalize.mp hc with ⟨b, _, _, hbc⟩
    rw [← hbc]
    exact toLowerCh_idem b
  calc (normalize s).map toLowerCh
      = (normalize s).map id := List.map_congr_left this
    _ = normalize s := List.map_id _

theorem toLowerCh_eq_iff_of_low {a c : Char} (hc : c.toNat < 65) :
    toLowerCh a = c ↔ a = c := by
  constructor
  · intro h
    by_cases hu : 65 ≤ a.toNat ∧ a.toNat ≤ 90
    · have := toNat_toLowerCh_of_upper hu
      rw [h] at this
      omega
    · rw [toLowerCh_eq_self hu] at h
      exact h
  · intro h
    subst h
    exact toLowerCh_eq_self (by omega)

theorem count_map_toLowerCh {c : Char} (hc : c.toNat < 65) (l : List Char) :
    (l.map toLowerCh).count c = l.count c := by
  induction l with
  | nil => rfl
  | cons a t ih =>
    have hbeq : (toLowerCh a == c) = (a == c) := by
      by_cases h : a = c
      · subst h
        simp [(toLowerCh_eq_iff_of_low hc).mpr rfl]
      · have h2 : toLowerCh a ≠ c := fun hco => h ((toLowerCh_eq_iff_of_low hc).mp hco)
        simp [h, h2]
    simp only [List.map_cons, List.count_cons, ih, hbeq]

/-- C2: for every string, the normalized string contains none of the eight
ignorable punctuation characters and no uppercase ASCII letter; the
normalizer is exactly "drop the ignorable characters, then case-fold each
remaining character", so every character outside the ignore set is passed
through unchanged except for case folding; characters below code point 65
(in particular all whitespace, space included) keep their exact number of
occurrences; and concretely `normalize "Hello, World!" = "hello world"` and
`normalize "" = ""`. -/
theorem normalize_charset_spec (s : List Char) :
    (∀ c ∈ normalize s, c ∉ charsToIgnore) ∧
    (∀ c ∈ normalize s, ¬ (65 ≤ c.toNat ∧ c.toNat ≤ 90)) ∧
    normalize s = (s.filter (fun c => decide (c ∉ charsToIgnore))).map toLowerCh ∧
    (∀ c : Char, c ∉ charsToIgnore → c.toNat < 65 →
      (normalize s).count c = s.count c) ∧
    normalize "Hello, World!".data = "hello world".data ∧
    normalize "".data = "".data := by
  refine ⟨normalize_all_not_ignored s, ?_, ?_, ?_, by decide, by decide⟩
  · intro c hc
    rcases mem_normalize.mp hc with ⟨b, _, _, hbc⟩
    intro hup
    by_cases hu : 65 ≤ b.toNat ∧ b.toNat ≤ 90
    · have := toNat_toLowerCh_of_upper hu
      rw [hbc] at this
      omega
    · rw [toLowerCh_eq_self hu] at hbc
      subst hbc
      exact hu hup
  · rw [normalize, remove_special_characters, subIgnored_eq_filter]
  · intro c hci hc
    show ((subIgnored s).map toLowerCh).count c = s.count c
    rw [count_map_toLowerCh hc, subIgnored_eq_filter]
    exact List.count_filter (by simpa using hci)


/- Lookup facts for the dict embedding. -/

theorem dictGet?_mem : ∀ {d : Vocab} {k : Key} {v : Nat},
    dictGet? d k = some v → (k, v) ∈ d := by
  intro d
  induction d with
  | nil =>
    intro k v h
    simp [dictGet?] at h
  | cons p d ih =>
    intro k v h
    obtain ⟨k0, v0⟩ := p
    by_cases hpk : k0 = k
    · subst hpk
      simp [dictGet?] at h
      subst h
      exact List.mem_cons_self _ _
    · simp [dictGet?, hpk] at h
      exact List.mem_cons_of_mem _ (ih h)

theorem dictGet?_eq_none_iff {d : Vocab} {k : Key} :
    dictGet? d k = none ↔ k ∉ d.map Prod.fst := by
  induction d with
  | nil => simp [dictGet?]
  | cons p d ih =>
    obtain ⟨k0, v0⟩ := p
    by_cases hpk : k0 = k
    · subst hpk
      simp [dictGet?]
    · simp [dictGet?, hpk, ih, Ne.symm hpk]

theorem dictGet?_isSome_of_mem_keys {d : Vocab} {k : Key}
    (h : k ∈ d.map Prod.fst) : ∃ v, dictGet? d k = some v := by
  cases hv : dictGet? d k with
  | none => exact absurd h (dictGet?_eq_none_iff.mp hv)
  | some v => exact ⟨v, rfl⟩

/- Assignment facts for the dict embedding. -/

theorem dictSet_of_not_mem_keys {d : Vocab} {k : Key} {v : Nat}
    (h : k ∉ d.map Prod.fst) : dictSet d k v = d ++ [(k, v)] := by
  induction d with
  | nil => rfl
  | cons p d ih =>
    simp only [List.map_cons, List.mem_cons, not_or] at h
    simp [dictSet, Ne.symm h.1, ih h.2]

theorem mem_dictSet_self (d : Vocab) (k : Key) (v : Nat) :
    (k, v) ∈ dictSet d k v := by
  induction d with
  | nil => exact List.mem_cons_self _ _
  | cons p d ih =>
    by_cases hpk : p.1 = k
    · simp [dictSet, hpk]
    · simp only [dictSet, if_neg hpk]
      exact List.mem_cons_of_mem _ ih

theorem mem_dictSet_of_ne {d : Vocab} {k1 : Key} {v1 : Nat} {k : Key} {v : Nat}
    (h : (k1, v1) ∈ d) (hne : k1 ≠ k) : (k1, v1) ∈ dictSet d k v := by
  induction d with
  | nil => simp at h
  | cons p d ih =>
    by_cases hpk : p.1 = k
    · simp only [dictSet, if_pos hpk]
      rcases List.mem_cons.mp h with h1 | h1
      · exact absurd ((congrArg Prod.fst h1).trans hpk) hne
      · exact List.mem_cons_of_mem _ h1
    · simp only [dictSet, if_neg hpk]
      rcases List.mem_cons.mp h with h1 | h1
      · exact List.mem_cons.mpr (Or.inl h1)
      · exact List.mem_cons_of_mem _ (ih h1)

theorem mem_keys_dictSet_iff {d : Vocab} {k : Key} {v : Nat} {k1 : Key} :
    k1 ∈ (dictSet d k v).map Prod.fst ↔ k1 ∈ d.map Prod.fst ∨ k1 = k := by
  induction d with
  | nil => simp [dictSet]
  | cons p d ih =>
    obtain ⟨k0, v0⟩ := p
    by_cases hpk : k0 = k
    · subst hpk
      simp [dictSet]
      tauto
    · simp [dictSet, hpk, ih]
      tauto

theorem nodup_keys_dictSet {d : Vocab} {k : Key} {v : Nat}
    (h : (d.map Prod.fst).Nodup) : ((dictSet d k v).map Prod.fst).Nodup := by
  induction d with
  | nil => simp [dictSet]
  | cons p d ih =>
    obtain ⟨k0, v0⟩ := p
    simp only [List.map_cons, List.nodup_cons] at h
    by_cases hpk : k0 = k
    · subst hpk
      have hset : dictSet ((k0, v0) :: d) k0 v = (k0, v) :: d := by
        simp [dictSet]
      rw [hset, List.map_cons, List.nodup_cons]
      exact h
    · simp only [dictSet, if_neg hpk, List.map_cons, List.nodup_cons]
      refine ⟨?_, ih h.2⟩
      intro hk
      rcases mem_keys_dictSet_iff.mp hk with h1 | h1
      · exact h.1 h1
      · exact hpk h1

/- Deletion facts for the dict embedding. -/

theorem dictDel_sublist (d : Vocab) (k : Key) : (dictDel d k).Sublist d := by
  induction d with
  | nil => simp [dictDel]
  | cons p d ih =>
    by_cases hpk : p.1 = k
    · simp only [dictDel, if_pos hpk]
      exact List.sublist_cons_self p d
    · simp only [dictDel, if_neg hpk]
      exact List.Sublist.cons₂ p ih

theorem mem_dictDel_of_ne {d : Vocab} {k1 : Key} {v1 : Nat} {k : Key}
    (h : (k1, v1) ∈ d) (hne : k1 ≠ k) : (k1, v1) ∈ dictDel d k := by
  induction d with
  | nil => simp at h
  | cons p d ih =>
    by_cases hpk : p.1 = k
    · simp only [dictDel, if_pos hpk]
      rcases List.mem_cons.mp h with h1 | h1
      · exact absurd ((congrArg Prod.fst h1).trans hpk) hne
      · exact h1
    · simp only [dictDel, if_neg hpk]
      rcases List.mem_cons.mp h with h1 | h1
      · exact List.mem_cons.mpr (Or.inl h1)
      · exact List.mem_cons_of_mem _ (ih h1)

theorem not_mem_keys_dictDel {d : Vocab} {k : Key}
    (h : (d.map Prod.fst).Nodup) : k ∉ (dictDel d k).map Prod.fst := by
  induction d with
  | nil => simp [dictDel]
  | cons p d ih =>
    obtain ⟨k0, v0⟩ := p
    simp only [List.map_cons, List.nodup_cons] at h
    by_cases hpk : k0 = k
    · subst hpk
      have hdel : dictDel ((k0, v0) :: d) k0 = d := by
        simp [dictDel]
      rw [hdel]
      exact h.1
    · simp only [dictDel, if_neg hpk, List.map_cons, List.mem_cons]
      push_neg
      exact ⟨fun he => hpk he.symm, ih h.2⟩

theorem dictDel_append_left {d1 : Vocab} {k : Key}
    (h : k ∈ d1.map Prod.fst) (d2 : Vocab) :
    dictDel (d1 ++ d2) k = dictDel d1 k ++ d2 := by
  induction d1 with
  | nil => simp at h
  | cons p d ih =>
    by_cases hpk : p.1 = k
    · simp [dictDel, hpk]
    · simp only [List.map_cons, List.mem_cons] at h
      rcases h with h1 | h1
      · exact absurd h1.symm hpk
      · simp [dictDel, hpk, ih h1]

theorem length_dictDel_of_mem {d : Vocab} {k : Key}
    (h : k ∈ d.map Prod.fst) : (dictDel d k).length + 1 = d.length := by
  induction d with
  | nil => simp at h
  | cons p d ih =>
    by_cases hpk : p.1 = k
    · simp [dictDel, hpk]
    · simp only [List.map_cons, List.mem_cons] at h
      rcases h with h1 | h1
      · exact absurd h1.symm hpk
      · have := ih h1
        simp only [dictDel, if_neg hpk, List.length_cons]
        omega

theorem map_snd_dictDel_perm {d : Vocab} {k : Key} {v : Nat}
    (hnd : (d.map Prod.fst).Nodup) (h : (k, v) ∈ d) :
    (d.map Prod.snd).Perm (v :: (dictDel d k).map Prod.snd) := by
  induction d with
  | nil => simp at h
  | cons p d ih =>
    simp only [List.map_cons, List.nodup_cons] at hnd
    by_cases hpk : p.1 = k
    · have hp : p = (k, v) := by
        rcases List.mem_cons.mp h with h1 | h1
        · exact h1.symm
        · exfalso
          refine hnd.1 ?_
          rw [hpk]
          exact List.mem_map.mpr ⟨(k, v), h1, rfl⟩
      simp only [dictDel, if_pos hpk, hp, List.map_cons]
      exact List.Perm.refl _
    · have h1 : (k, v) ∈ d := by
        rcases List.mem_cons.mp h with h2 | h2
        · exact absurd (congrArg Prod.fst h2).symm hpk
        · exact h2
      simp only [dictDel, if_neg hpk, List.map_cons]
      exact (List.Perm.cons p.2 (ih hnd.2 h1)).trans (List.Perm.swap v p.2 _)

/- Facts about the space-join and the enumerated character list. -/

theorem joinWithSpace_cons_cons (t t2 : List Char) (ts : List (List Char)) :
    joinWithSpace (t :: t2 :: ts) = t ++ ' ' :: joinWithSpace (t2 :: ts) := rfl

theorem mem_joinWithSpace : ∀ {corpus : List (List Char)} {t : List Char}
    {c : Char}, t ∈ corpus → c ∈ t → c ∈ joinWithSpace corpus := by
  intro corpus
  induction corpus with
  | nil =>
    intro t c ht
    simp at ht
  | cons a l ih =>
    intro t c ht hc
    rcases List.mem_cons.mp ht with h1 | h1
    · subst h1
      cases l with
      | nil => exact hc
      | cons b l2 =>
        rw [joinWithSpace_cons_cons]
        exact List.mem_append_left _ hc
    · cases l with
      | nil => simp at h1
      | cons b l2 =>
        rw [joinWithSpace_cons_cons]
        exact List.mem_append_right _ (List.mem_cons_of_mem _ (ih h1 hc))

theorem space_mem_joinWithSpace {corpus : List (List Char)}
    (h : 2 ≤ corpus.length) : ' ' ∈ joinWithSpace corpus := by
  cases corpus with
  | nil => simp at h
  | cons a l =>
    cases l with
    | nil => simp at h
    | cons b l2 =>
      rw [joinWithSpace_cons_cons]
      exact List.mem_append_right _ (List.mem_cons_self _ _)

theorem joinWithSpace_perm_flatten (l : List (List Char)) :
    (joinWithSpace l).Perm (l.flatten ++ List.replicate (l.length - 1) ' ') := by
  induction l with
  | nil => simp [joinWithSpace]
  | cons t ts ih =>
    cases ts with
    | nil => simp [joinWithSpace]
    | cons t2 ts2 =>
      rw [joinWithSpace_cons_cons, List.flatten_cons,
        show (t :: t2 :: ts2).length - 1 = ((t2 :: ts2).length - 1) + 1 by simp,
        List.replicate_succ, List.append_assoc]
      exact (List.Perm.append_left t (List.Perm.cons ' ' ih)).trans
        (List.Perm.append_left t List.perm_middle.symm)

theorem joinWithSpace_perm {c1 c2 : List (List Char)} (h : c1.Perm c2) :
    (joinWithSpace c1).Perm (joinWithSpace c2) := by
  refine (joinWithSpace_perm_flatten c1).trans
    (List.Perm.trans ?_ (joinWithSpace_perm_flatten c2).symm)
  refine List.Perm.append h.flatten ?_
  rw [h.length_eq]

theorem nodup_vocabList (corpus : List (List Char)) : (vocabList corpus).Nodup :=
  ((List.perm_insertionSort _ _).nodup_iff).mpr (List.nodup_dedup _)

theorem mem_vocabList {c : Char} {corpus : List (List Char)} :
    c ∈ vocabList corpus ↔ c ∈ joinWithSpace corpus := by
  unfold vocabList
  rw [List.Perm.mem_iff (List.perm_insertionSort _ _), List.mem_dedup]

theorem vocabList_perm_eq {c1 c2 : List (List Char)} (h : c1.Perm c2) :
    vocabList c1 = vocabList c2 := by
  have hperm : ((joinWithSpace c1).dedup).Perm ((joinWithSpace c2).dedup) :=
    (joinWithSpace_perm h).dedup
  have h1 := List.perm_insertionSort (fun a b : Char => a ≤ b) (joinWithSpace c1).dedup
  have h2 := List.perm_insertionSort (fun a b : Char => a ≤ b) (joinWithSpace c2).dedup
  exact List.eq_of_perm_of_sorted ((h1.trans hperm).trans h2.symm)
    (List.sorted_insertionSort _ _) (List.sorted_insertionSort _ _)

theorem keys_vocabInit (corpus : List (List Char)) :
    (vocabInit corpus).map Prod.fst = (vocabList corpus).map (fun c => [c]) := by
  unfold vocabInit
  rw [List.map_map]
  rw [show (Prod.fst ∘ fun p : Nat × Char => ([p.2], p.1)) =
    (fun c => [c]) ∘ Prod.snd from rfl]
  rw [← List.map_map, List.enum_map_snd]

theorem vals_vocabInit (corpus : List (List Char)) :
    (vocabInit corpus).map Prod.snd = List.range (vocabList corpus).length := by
  unfold vocabInit
  rw [List.map_map]
  rw [show (Prod.snd ∘ fun p : Nat × Char => ([p.2], p.1)) =
    (Prod.fst : Nat × Char → Nat) from rfl]
  rw [List.enum_map_fst]

theorem nodup_keys_vocabInit (corpus : List (List Char)) :
    ((vocabInit corpus).map Prod.fst).Nodup := by
  rw [keys_vocabInit]
  exact (nodup_vocabList corpus).map (fun a b hab => by simpa using hab)

theorem mem_keys_vocabInit {c : Char} {corpus : List (List Char)} :
    [c] ∈ (vocabInit corpus).map Prod.fst ↔ c ∈ vocabList corpus := by
  rw [keys_vocabInit]
  constructor
  · intro h
    rcases List.mem_map.mp h with ⟨b, hb, hbc⟩
    obtain rfl : b = c := by simpa using hbc
    exact hb
  · intro h
    exact List.mem_map.mpr ⟨c, h, rfl⟩

theorem length_one_of_mem_keys_vocabInit {k : Key} {corpus : List (List Char)}
    (h : k ∈ (vocabInit corpus).map Prod.fst) : k.length = 1 := by
  rw [keys_vocabInit] at h
  rcases List.mem_map.mp h with ⟨c, _, rfl⟩
  rfl

/-- C8: the vocabulary builder is invariant under permutation of the
transcripts of the corpus: the distinct-character computation operates on a
set, the space separators added by the join are unchanged in number, and the
canonical set enumeration depends only on the character set, so both
orderings give the same final mapping (or the same failure). -/
theorem buildVocabulary_perm_invariant (c1 c2 : List (List Char))
    (h : c1.Perm c2) : buildVocabulary c1 = buildVocabulary c2 := by
  unfold buildVocabulary vocabInit
  rw [vocabList_perm_eq h]

/-- Witness for C8 at the concrete permuted pair `["hi", "yo"]` and
`["yo", "hi"]`. -/
theorem buildVocabulary_perm_invariant_witness :
    (([['h', 'i'], ['y', 'o']] : List (List Char)).Perm
      [['y', 'o'], ['h', 'i']]) ∧
    buildVocabulary [['h', 'i'], ['y', 'o']] =
      buildVocabulary [['y', 'o'], ['h', 'i']] :=
  ⟨by decide, buildVocabulary_perm_invariant _ _ (by decide)⟩

/- Closed form of a successful build when the corpus does not contain the
word-delimiter character itself. -/

theorem unk_not_mem_keys {d : Vocab}
    (hone : ∀ k ∈ d.map Prod.fst, k.length = 1) :
    unkToken ∉ d.map Prod.fst := by
  intro h
  exact absurd (hone unkToken h) (by decide)

theorem pad_not_mem_keys {d : Vocab}
    (hone : ∀ k ∈ d.map Prod.fst, k.length = 1) :
    padToken ∉ d.map Prod.fst := by
  intro h
  exact absurd (hone padToken h) (by decide)

theorem buildVocabulary_closed_form {corpus : List (List Char)} {i : Nat}
    (hi : dictGet? (vocabInit corpus) spaceKey = some i)
    (hp : wordDelimiterToken ∉ (vocabInit corpus).map Prod.fst) :
    buildVocabulary corpus =
      .ok (dictDel (vocabInit corpus) spaceKey ++
        [(wordDelimiterToken, i),
         (unkToken, (dictDel (vocabInit corpus) spaceKey).length + 1),
         (padToken, (dictDel (vocabInit corpus) spaceKey).length + 2)]) := by
  have hsp : spaceKey ∈ (vocabInit corpus).map Prod.fst :=
    List.mem_map.mpr ⟨(spaceKey, i), dictGet?_mem hi, rfl⟩
  have h1 : dictSet (vocabInit corpus) wordDelimiterToken i =
      vocabInit corpus ++ [(wordDelimiterToken, i)] :=
    dictSet_of_not_mem_keys hp
  have h2 : dictDel (vocabInit corpus ++ [(wordDelimiterToken, i)]) spaceKey =
      dictDel (vocabInit corpus) spaceKey ++ [(wordDelimiterToken, i)] :=
    dictDel_append_left hsp _
  have hkeysD : ∀ k ∈ (dictDel (vocabInit corpus) spaceKey ++
      [(wordDelimiterToken, i)]).map Prod.fst, k.length = 1 := by
    intro k hk
    rw [List.map_append, List.mem_append] at hk
    rcases hk with hk | hk
    · rcases List.mem_map.mp hk with ⟨p, hpm, hpe⟩
      exact length_one_of_mem_keys_vocabInit (List.mem_map.mpr
        ⟨p, (dictDel_sublist (vocabInit corpus) spaceKey).subset hpm, hpe⟩)
    · simp at hk
      subst hk
      rfl
  have h3 : dictSet (dictDel (vocabInit corpus) spaceKey ++
        [(wordDelimiterToken, i)]) unkToken
        ((dictDel (vocabInit corpus) spaceKey).length + 1) =
      dictDel (vocabInit corpus) spaceKey ++ [(wordDelimiterToken, i)] ++
        [(unkToken, (dictDel (vocabInit corpus) spaceKey).length + 1)] :=
    dictSet_of_not_mem_keys (unk_not_mem_keys hkeysD)
  have hkeysD2 : padToken ∉ (dictDel (vocabInit corpus) spaceKey ++
      [(wordDelimiterToken, i)] ++
      [(unkToken, (dictDel (vocabInit corpus) spaceKey).length + 1)]).map
        Prod.fst := by
    intro h
    rw [List.map_append, List.mem_append] at h
    rcases h with h | h
    · exact pad_not_mem_keys hkeysD h
    · simp at h
      exact absurd h (by decide)
  have h4 : dictSet (dictDel (vocabInit corpus) spaceKey ++
        [(wordDelimiterToken, i)] ++
        [(unkToken, (dictDel (vocabInit corpus) spaceKey).length + 1)])
        padToken ((dictDel (vocabInit corpus) spaceKey).length + 2) =
      dictDel (vocabInit corpus) spaceKey ++ [(wordDelimiterToken, i)] ++
        [(unkToken, (dictDel (vocabInit corpus) spaceKey).length + 1)] ++
        [(padToken, (dictDel (vocabInit corpus) spaceKey).length + 2)] :=
    dictSet_of_not_mem_keys hkeysD2
  simp only [buildVocabulary, buildVocabFrom, hi, h1, h2]
  rw [show (dictDel (vocabInit corpus) spaceKey ++
      [(wordDelimiterToken, i)]).length =
      (dictDel (vocabInit corpus) spaceKey).length + 1 by simp]
  rw [h3]
  rw [show (dictDel (vocabInit corpus) spaceKey ++ [(wordDelimiterToken, i)] ++
      [(unkToken, (dictDel (vocabInit corpus) spaceKey).length + 1)]).length =
      (dictDel (vocabInit corpus) spaceKey).length + 2 by simp]
  rw [h4]
  simp [List.append_assoc]

theorem length_vocabInit (corpus : List (List Char)) :
    (vocabInit corpus).length = (vocabList corpus).length := by
  simp [vocabInit, List.enum_length]

theorem range_add_two (n : Nat) :
    List.range (n + 2) = List.range n ++ [n, n + 1] := by
  rw [show n + 2 = (n + 1) + 1 from rfl, List.range_succ, List.range_succ]
  simp [List.append_assoc]

theorem nodup_dense_closed_form (d0 : Vocab) (i : Nat)
    (hnd0 : (d0.map Prod.fst).Nodup)
    (hone : ∀ k ∈ d0.map Prod.fst, k.length = 1)
    (hwd : wordDelimiterToken ∉ d0.map Prod.fst)
    (hsp : (spaceKey, i) ∈ d0)
    (hvals : d0.map Prod.snd = List.range d0.length) :
    ((dictDel d0 spaceKey ++ [(wordDelimiterToken, i),
        (unkToken, (dictDel d0 spaceKey).length + 1),
        (padToken, (dictDel d0 spaceKey).length + 2)]).map Prod.fst).Nodup ∧
    ((dictDel d0 spaceKey ++ [(wordDelimiterToken, i),
        (unkToken, (dictDel d0 spaceKey).length + 1),
        (padToken, (dictDel d0 spaceKey).length + 2)]).map Prod.snd).Perm
      (List.range (dictDel d0 spaceKey ++ [(wordDelimiterToken, i),
        (unkToken, (dictDel d0 spaceKey).length + 1),
        (padToken, (dictDel d0 spaceKey).length + 2)]).length) := by
  have hspk : spaceKey ∈ d0.map Prod.fst :=
    List.mem_map.mpr ⟨(spaceKey, i), hsp, rfl⟩
  have hsub : ((dictDel d0 spaceKey).map Prod.fst).Sublist (d0.map Prod.fst) :=
    List.Sublist.map Prod.fst (dictDel_sublist d0 spaceKey)
  have hDnodup : ((dictDel d0 spaceKey).map Prod.fst).Nodup :=
    List.Nodup.sublist hsub hnd0
  constructor
  · rw [List.map_append, List.nodup_append]
    refine ⟨hDnodup, by simp only [List.map_cons, List.map_nil]; decide, ?_⟩
    intro k hk hmem
    have hk0 : k ∈ d0.map Prod.fst := hsub.subset hk
    have hk1 : k.length = 1 := hone k hk0
    simp only [List.map_cons, List.map_nil, List.mem_cons,
      List.not_mem_nil, or_false] at hmem
    rcases hmem with rfl | rfl | rfl
    · exact hwd hk0
    · exact absurd hk1 (by decide)
    · exact absurd hk1 (by decide)
  · have hperm := map_snd_dictDel_perm hnd0 hsp
    rw [hvals] at hperm
    have hlen : (dictDel d0 spaceKey).length + 1 = d0.length :=
      length_dictDel_of_mem hspk
    have e0 := @List.perm_middle Nat i ((dictDel d0 spaceKey).map Prod.snd) []
    rw [List.append_nil] at e0
    have e1 : ((dictDel d0 spaceKey).map Prod.snd ++ [i]).Perm
        (List.range ((dictDel d0 spaceKey).length + 1)) := by
      rw [hlen]
      exact e0.trans hperm.symm
    rw [List.map_append, List.length_append]
    show ((dictDel d0 spaceKey).map Prod.snd ++
        [i, (dictDel d0 spaceKey).length + 1,
          (dictDel d0 spaceKey).length + 2]).Perm
      (List.range ((dictDel d0 spaceKey).length + 3))
    rw [show [i, (dictDel d0 spaceKey).length + 1,
        (dictDel d0 spaceKey).length + 2] =
        [i] ++ [(dictDel d0 spaceKey).length + 1,
          (dictDel d0 spaceKey).length + 2] from rfl,
      ← List.append_assoc,
      show (dictDel d0 spaceKey).length + 3 =
        ((dictDel d0 spaceKey).length + 1) + 2 from rfl,
      range_add_two]
    exact List.Perm.append e1 (List.Perm.refl _)

/-- C3 (amended): for every corpus on which `buildVocabulary` succeeds and
whose joined text does not contain the character `'|'`, the returned mapping
has pairwise-distinct keys, no two keys share an index, and the indices are
exactly the dense range `[0, N)` for `N` the mapping's size.  (The amendment
excludes corpora containing `'|'`: for those the delimiter substitution
overwrites the existing `'|'` entry in place and both injectivity and
density fail — see the counterexample.) -/
theorem vocab_injective_dense (corpus : List (List Char)) (m : Vocab)
    (hok : buildVocabulary corpus = Except.ok m)
    (hnd : '|' ∉ joinWithSpace corpus) :
    (m.map Prod.fst).Nodup ∧ (m.map Prod.snd).Perm (List.range m.length) := by
  obtain ⟨i, hi⟩ : ∃ i, dictGet? (vocabInit corpus) spaceKey = some i := by
    cases hv : dictGet? (vocabInit corpus) spaceKey with
    | none =>
      exfalso
      have hcon : Except.error (VocabError.keyError spaceKey) =
          (Except.ok m : Except VocabError Vocab) := by
        rw [← hok]
        simp only [buildVocabulary, buildVocabFrom, hv]
      exact Except.noConfusion hcon
    | some v => exact ⟨v, rfl⟩
  have hp : wordDelimiterToken ∉ (vocabInit corpus).map Prod.fst := by
    intro h
    exact hnd (mem_vocabList.mp (mem_keys_vocabInit.mp h))
  have hclosed := buildVocabulary_closed_form hi hp
  rw [hok] at hclosed
  injection hclosed with hm
  rw [hm]
  exact nodup_dense_closed_form (vocabInit corpus) i
    (nodup_keys_vocabInit corpus)
    (fun k hk => length_one_of_mem_keys_vocabInit hk)
    hp (dictGet?_mem hi)
    (by rw [vals_vocabInit, length_vocabInit])

/-- Witness for C3 at the corpus `["a b"]`. -/
theorem vocab_injective_dense_witness :
    buildVocabulary [['a', ' ', 'b']] = Except.ok
      [(['a'], 1), (['b'], 2), (['|'], 0), (unkToken, 3), (padToken, 4)] ∧
    '|' ∉ joinWithSpace [['a', ' ', 'b']] ∧
    (([(['a'], 1), (['b'], 2), (['|'], 0), (unkToken, 3),
        (padToken, 4)] : Vocab).map Prod.fst).Nodup ∧
    (([(['a'], 1), (['b'], 2), (['|'], 0), (unkToken, 3),
        (padToken, 4)] : Vocab).map Prod.snd).Perm
      (List.range ([(['a'], 1), (['b'], 2), (['|'], 0), (unkToken, 3),
        (padToken, 4)] : Vocab).length) :=
  ⟨by decide, by decide,
    vocab_injective_dense [['a', ' ', 'b']] _ (by decide) (by decide)⟩

/-- Counterexample to C3 as stated: the corpus `["| ~"]` contains the
word-delimiter character `'|'`; `buildVocabulary` succeeds, yet the two
distinct keys `"~"` and `"[UNK]"` both hold index 2, so the mapping is not
injective and its indices do not form the dense range `[0, 4)`. -/
theorem vocab_injective_dense_counterexample :
    buildVocabulary [['|', ' ', '~']] = Except.ok
      [(['|'], 0), (['~'], 2), (unkToken, 2), (padToken, 3)] ∧
    (['~'], 2) ∈ ([(['|'], 0), (['~'], 2), (unkToken, 2), (padToken, 3)] : Vocab) ∧
    (unkToken, 2) ∈ ([(['|'], 0), (['~'], 2), (unkToken, 2), (padToken, 3)] : Vocab) ∧
    (['~'] : Key) ≠ unkToken ∧
    ¬ (([(['|'], 0), (['~'], 2), (unkToken, 2), (padToken, 3)] : Vocab).map
        Prod.snd).Perm
      (List.range ([(['|'], 0), (['~'], 2), (unkToken, 2),
        (padToken, 3)] : Vocab).length) :=
  ⟨by decide, by decide, by decide, by decide, by decide⟩

theorem length_filter_ne_space {l : List Char} (hnd : l.Nodup) (hm : ' ' ∈ l) :
    (l.filter (fun c => c != ' ')).length + 1 = l.length := by
  induction l with
  | nil => simp at hm
  | cons a t ih =>
    rw [List.nodup_cons] at hnd
    by_cases ha : a = ' '
    · subst ha
      rw [List.filter_cons_of_neg (by simp)]
      have hall : t.filter (fun c => c != ' ') = t :=
        List.filter_eq_self.mpr (fun c hc => by
          simp only [bne_iff_ne, ne_eq]
          intro he
          exact hnd.1 (he ▸ hc))
      rw [hall, List.length_cons]
    · rcases List.mem_cons.mp hm with h1 | h1
      · exact absurd h1.symm ha
      · rw [List.filter_cons_of_pos (by simpa using ha), List.length_cons,
          List.length_cons]
        have := ih hnd.2 h1
        omega

theorem distinct_plus_one {corpus : List (List Char)}
    (hm : ' ' ∈ vocabList corpus) :
    distinctNonSpaceCount corpus + 1 = (vocabList corpus).length := by
  have hperm : (((joinWithSpace corpus).dedup).filter (fun c => c != ' ')).Perm
      ((vocabList corpus).filter (fun c => c != ' ')) :=
    List.Perm.filter _ (List.perm_insertionSort _ _).symm
  rw [distinctNonSpaceCount, hperm.length_eq]
  exact length_filter_ne_space (nodup_vocabList corpus) hm

/-- C4 (amended): for every corpus on which `buildVocabulary` succeeds and
whose joined text does not contain the character `'|'`, the final size `N`
equals the count of distinct non-space characters plus 3, and the mapping
ends with the two reserved entries `"[UNK]"` and `"[PAD]"` appended in that
order holding the two highest indices `N - 2` and `N - 1`.  (The amendment
excludes corpora containing `'|'`: for those the delimiter substitution
consumes the pre-assigned `'|'` entry and the size formula fails — see the
counterexample.) -/
theorem vocab_size_reserved (corpus : List (List Char)) (m : Vocab)
    (hok : buildVocabulary corpus = Except.ok m)
    (hnd : '|' ∉ joinWithSpace corpus) :
    m.length = distinctNonSpaceCount corpus + 3 ∧
    ∃ d, m = d ++ [(unkToken, distinctNonSpaceCount corpus + 1),
      (padToken, distinctNonSpaceCount corpus + 2)] := by
  obtain ⟨i, hi⟩ : ∃ i, dictGet? (vocabInit corpus) spaceKey = some i := by
    cases hv : dictGet? (vocabInit corpus) spaceKey with
    | none =>
      exfalso
      have hcon : Except.error (VocabError.keyError spaceKey) =
          (Except.ok m : Except VocabError Vocab) := by
        rw [← hok]
        simp only [buildVocabulary, buildVocabFrom, hv]
      exact Except.noConfusion hcon
    | some v => exact ⟨v, rfl⟩
  have hp : wordDelimiterToken ∉ (vocabInit corpus).map Prod.fst := by
    intro h
    exact hnd (mem_vocabList.mp (mem_keys_vocabInit.mp h))
  have hclosed := buildVocabulary_closed_form hi hp
  rw [hok] at hclosed
  injection hclosed with hm
  have hspk : spaceKey ∈ (vocabInit corpus).map Prod.fst :=
    List.mem_map.mpr ⟨(spaceKey, i), dictGet?_mem hi, rfl⟩
  have hspm : ' ' ∈ vocabList corpus := mem_keys_vocabInit.mp hspk
  have h1 : (dictDel (vocabInit corpus) spaceKey).length + 1 =
      (vocabInit corpus).length := length_dictDel_of_mem hspk
  have h2 : distinctNonSpaceCount corpus + 1 = (vocabList corpus).length :=
    distinct_plus_one hspm
  have h3 : (vocabInit corpus).length = (vocabList corpus).length :=
    length_vocabInit corpus
  have hD : (dictDel (vocabInit corpus) spaceKey).length =
      distinctNonSpaceCount corpus := by omega
  constructor
  · rw [hm, List.length_append, hD]
    rfl
  · refine ⟨dictDel (vocabInit corpus) spaceKey ++ [(wordDelimiterToken, i)], ?_⟩
    rw [hm, hD, List.append_assoc]
    rfl

/-- Witness for C4 at the corpus `["hi yo"]`. -/
theorem vocab_size_reserved_witness :
    buildVocabulary [['h', 'i', ' ', 'y', 'o']] = Except.ok
      [(['h'], 1), (['i'], 2), (['o'], 3), (['y'], 4), (['|'], 0),
        (unkToken, 5), (padToken, 6)] ∧
    '|' ∉ joinWithSpace [['h', 'i', ' ', 'y', 'o']] ∧
    (([(['h'], 1), (['i'], 2), (['o'], 3), (['y'], 4), (['|'], 0),
        (unkToken, 5), (padToken, 6)] : Vocab).length =
      distinctNonSpaceCount [['h', 'i', ' ', 'y', 'o']] + 3 ∧
    ∃ d, ([(['h'], 1), (['i'], 2), (['o'], 3), (['y'], 4), (['|'], 0),
        (unkToken, 5), (padToken, 6)] : Vocab) = d ++
      [(unkToken, distinctNonSpaceCount [['h', 'i', ' ', 'y', 'o']] + 1),
       (padToken, distinctNonSpaceCount [['h', 'i', ' ', 'y', 'o']] + 2)]) :=
  ⟨by decide, by decide,
    vocab_size_reserved [['h', 'i', ' ', 'y', 'o']] _ (by decide) (by decide)⟩

/-- Counterexample to C4 as stated: the corpus `["| a"]` contains the
word-delimiter character `'|'`; `buildVocabulary` succeeds with a mapping of
size 4, but the corpus has 2 distinct non-space characters, so the claimed
size `2 + 3 = 5` is wrong. -/
theorem vocab_size_reserved_counterexample :
    buildVocabulary [['|', ' ', 'a']] = Except.ok
      [(['a'], 1), (['|'], 0), (unkToken, 2), (padToken, 3)] ∧
    distinctNonSpaceCount [['|', ' ', 'a']] = 2 ∧
    ([(['a'], 1), (['|'], 0), (unkToken, 2), (padToken, 3)] : Vocab).length ≠
      distinctNonSpaceCount [['|', ' ', 'a']] + 3 :=
  ⟨by decide, by decide, by decide⟩

theorem build_ok_of_space_mem {corpus : List (List Char)} {i : Nat}
    (hi : dictGet? (vocabInit corpus) spaceKey = some i) :
    ∃ m, buildVocabulary corpus = Except.ok m ∧
      (wordDelimiterToken, i) ∈ m ∧ spaceKey ∉ m.map Prod.fst := by
  cases hb : buildVocabulary corpus with
  | error e =>
    exfalso
    simp only [buildVocabulary, buildVocabFrom, hi] at hb
    exact Except.noConfusion hb
  | ok m =>
    have hs := hb
    simp only [buildVocabulary, buildVocabFrom, hi] at hs
    injection hs with hm
    subst hm
    refine ⟨_, rfl, ?_, ?_⟩
    · exact mem_dictSet_of_ne (mem_dictSet_of_ne (mem_dictDel_of_ne
        (mem_dictSet_self _ _ _) (by decide)) (by decide)) (by decide)
    · have hnodup : ((dictSet (vocabInit corpus) wordDelimiterToken i).map
          Prod.fst).Nodup := nodup_keys_dictSet (nodup_keys_vocabInit corpus)
      intro hmem
      rcases mem_keys_dictSet_iff.mp hmem with h5 | h5
      · rcases mem_keys_dictSet_iff.mp h5 with h6 | h6
        · exact not_mem_keys_dictDel hnodup h6
        · exact (by decide : spaceKey ≠ unkToken) h6
      · exact (by decide : spaceKey ≠ padToken) h5

/-- C5: for every corpus in which some transcript contains a space
character, `buildVocabulary` succeeds with a mapping that does not contain
the space key, and the reserved symbol `"|"` holds exactly the index that
the enumeration originally assigned to the space character; in particular
the corpus `["ab ba", "ba ab"]` yields exactly the 5 entries
`{a, b, |, [UNK], [PAD]}` with `|` on the space's index 0 and `[UNK]`,
`[PAD]` on the two highest indices. -/
theorem vocab_space_substitution (corpus : List (List Char))
    (hsp : ∃ t ∈ corpus, ' ' ∈ t) :
    (∃ m i, buildVocabulary corpus = Except.ok m ∧
      dictGet? (vocabInit corpus) spaceKey = some i ∧
      (wordDelimiterToken, i) ∈ m ∧ spaceKey ∉ m.map Prod.fst) ∧
    buildVocabulary ["ab ba".data, "ba ab".data] = Except.ok
      [(['a'], 1), (['b'], 2), (['|'], 0), (unkToken, 3), (padToken, 4)] := by
  constructor
  · obtain ⟨t, ht, hc⟩ := hsp
    have hj : ' ' ∈ joinWithSpace corpus := mem_joinWithSpace ht hc
    have hv : ' ' ∈ vocabList corpus := mem_vocabList.mpr hj
    have hk : spaceKey ∈ (vocabInit corpus).map Prod.fst :=
      mem_keys_vocabInit.mpr hv
    obtain ⟨i, hi⟩ := dictGet?_isSome_of_mem_keys hk
    obtain ⟨m, hb, hw, hns⟩ := build_ok_of_space_mem hi
    exact ⟨m, i, hb, hi, hw, hns⟩
  · decide

/-- Witness for C5 at the corpus `["ab ba", "ba ab"]`. -/
theorem vocab_space_substitution_witness :
    (∃ t ∈ (["ab ba".data, "ba ab".data] : List (List Char)), ' ' ∈ t) ∧
    ((∃ m i, buildVocabulary ["ab ba".data, "ba ab".data] = Except.ok m ∧
      dictGet? (vocabInit ["ab ba".data, "ba ab".data]) spaceKey = some i ∧
      (wordDelimiterToken, i) ∈ m ∧ spaceKey ∉ m.map Prod.fst) ∧
    buildVocabulary ["ab ba".data, "ba ab".data] = Except.ok
      [(['a'], 1), (['b'], 2), (['|'], 0), (unkToken, 3), (padToken, 4)]) :=
  ⟨by decide, vocab_space_substitution ["ab ba".data, "ba ab".data] (by decide)⟩

/-- C9: because the builder joins the transcripts with a single space
separator, every corpus of at least two transcripts puts the space character
into the computed character set — even when no transcript contains a space —
so the substitution finds a space to reassign, the build succeeds, and the
key `"|"` is present in the returned mapping. -/
theorem join_separator_forces_space (corpus : List (List Char))
    (h2 : 2 ≤ corpus.length) :
    ' ' ∈ vocabList corpus ∧
    ∃ m, buildVocabulary corpus = Except.ok m ∧
      wordDelimiterToken ∈ m.map Prod.fst := by
  have hj := space_mem_joinWithSpace h2
  have hv : ' ' ∈ vocabList corpus := mem_vocabList.mpr hj
  refine ⟨hv, ?_⟩
  have hk : spaceKey ∈ (vocabInit corpus).map Prod.fst :=
    mem_keys_vocabInit.mpr hv
  obtain ⟨i, hi⟩ := dictGet?_isSome_of_mem_keys hk
  obtain ⟨m, hb, hw, _⟩ := build_ok_of_space_mem hi
  exact ⟨m, hb, List.mem_map.mpr ⟨(wordDelimiterToken, i), hw, rfl⟩⟩

/-- Witness for C9 at the space-free two-transcript corpus `["ab", "cd"]`. -/
theorem join_separator_forces_space_witness :
    2 ≤ ([['a', 'b'], ['c', 'd']] : List (List Char)).length ∧
    (' ' ∈ vocabList [['a', 'b'], ['c', 'd']] ∧
    ∃ m, buildVocabulary [['a', 'b'], ['c', 'd']] = Except.ok m ∧
      wordDelimiterToken ∈ m.map Prod.fst) :=
  ⟨by decide, join_separator_forces_space [['a', 'b'], ['c', 'd']] (by decide)⟩

theorem dedup_replicate_space (k : Nat) :
    (List.replicate (k + 1) ' ').dedup = [' '] := by
  induction k with
  | zero => decide
  | succ k ih =>
    rw [List.replicate_succ,
      List.dedup_cons_of_mem (List.mem_replicate.mpr ⟨Nat.succ_ne_zero k, rfl⟩)]
    exact ih

theorem joinWithSpace_replicate_nil (k : Nat) :
    joinWithSpace (List.replicate (k + 1) ([] : List Char)) =
      List.replicate k ' ' := by
  induction k with
  | zero => rfl
  | succ k ih =>
    rw [List.replicate_succ, List.replicate_succ, joinWithSpace_cons_cons]
    have hrest : joinWithSpace (([] : List Char) :: List.replicate k []) =
        List.replicate k ' ' := by
      rw [← List.replicate_succ]
      exact ih
    rw [hrest, List.nil_append, ← List.replicate_succ]

/-- C10: for a corpus of `n ≥ 2` empty-string transcripts the builder does
not fail: the space-separated join makes the character set exactly the
space character, and the result is the 3-entry mapping with keys `"|"`,
`"[UNK]"`, `"[PAD]"` at indices 0, 1, 2. -/
theorem empty_transcripts_vocab (n : Nat) (h2 : 2 ≤ n) :
    buildVocabulary (List.replicate n []) =
      Except.ok [(wordDelimiterToken, 0), (unkToken, 1), (padToken, 2)] := by
  obtain ⟨k, rfl⟩ : ∃ k, n = k + 2 := ⟨n - 2, by omega⟩
  have h1 : vocabList (List.replicate (k + 2) ([] : List Char)) = [' '] := by
    unfold vocabList
    rw [show k + 2 = (k + 1) + 1 from rfl, joinWithSpace_replicate_nil,
      dedup_replicate_space]
    rfl
  unfold buildVocabulary vocabInit
  rw [h1]
  decide

/-- Witness for C10 at `n = 2`. -/
theorem empty_transcripts_vocab_witness :
    2 ≤ 2 ∧ buildVocabulary (List.replicate 2 []) =
      Except.ok [(wordDelimiterToken, 0), (unkToken, 1), (padToken, 2)] :=
  ⟨by decide, empty_transcripts_vocab 2 (by decide)⟩

/-- Counterexample to C6 as stated: on the corpus of zero transcripts the
builder does fail, but with the dict lookup failure (`KeyError` on the
absent space key) of `vocab_dict["|"] = vocab_dict[" "]` — not with an
error named `EmptyCorpusError`. -/
theorem empty_corpus_keyError_counterexample :
    buildVocabulary [] = Except.error (VocabError.keyError spaceKey) ∧
    (Except.error (VocabError.keyError spaceKey) : Except VocabError Vocab) ≠
      Except.error VocabError.emptyCorpusError :=
  ⟨by decide, by decide⟩

/-- C6 (amended): for a corpus of zero transcripts `buildVocabulary` fails —
with the `KeyError` raised by looking up the absent space key — rather than
returning a mapping. -/
theorem empty_corpus_fails :
    buildVocabulary [] = Except.error (VocabError.keyError spaceKey) := by
  decide

/-- C7: evaluation of the builder at the failing input `["ab"]` — a single
transcript with no space, so the joined corpus contains no space character.
The specification says a mapping without the key `"|"` should be produced;
the source's delimiter reassignment instead looks up the absent space key
and fails with a `KeyError`.  The theorem proves the failure for every
corpus whose joined text has no space character. -/
theorem no_space_corpus_fails (corpus : List (List Char))
    (h : ' ' ∉ joinWithSpace corpus) :
    buildVocabulary corpus = Except.error (VocabError.keyError spaceKey) := by
  have hk : spaceKey ∉ (vocabInit corpus).map Prod.fst := by
    intro hmem
    exact h (mem_vocabList.mp (mem_keys_vocabInit.mp hmem))
  have hnone : dictGet? (vocabInit corpus) spaceKey = none :=
    dictGet?_eq_none_iff.mpr hk
  simp only [buildVocabulary, buildVocabFrom, hnone]

/-- Witness for the C7 divergence at the corpus `["ab"]`. -/
theorem no_space_corpus_fails_witness :
    (' ' ∉ joinWithSpace [['a', 'b']]) ∧
    buildVocabulary [['a', 'b']] = Except.error (VocabError.keyError spaceKey) :=
  ⟨by decide, no_space_corpus_fails [['a', 'b']] (by decide)⟩

end Wav2Vec2Prep
